import Mathlib

/-!
Shallow embedding of the `accept-language` crate (src/lib.rs).

Modelling choices:
* Rust strings are `List Char` (the crate only ever splits on single ASCII
  characters and removes spaces, so the character level is faithful to the
  byte-level code on ASCII input; `str` turns a Lean string literal into one).
* `f64` quality values are modelled as `ℚ`; `f64::from_str` is modelled by
  `parseF64`, covering the finite decimal forms of its grammar exactly (the
  non-finite `inf`/`infinity`/`nan` forms have no rational value and are
  outside the model, treated as parse failures).
* A Rust panic is modelled as `Option.none`: the slice `&raw_quality[2..]`
  panics when the string is shorter than two characters, so
  `quality_with_default` and everything built on it returns an `Option`.
-/

namespace AcceptLanguage

/-- Characters of a string literal. -/
def str (s : String) : List Char := s.data

/-- Rust `str::split(sep)` at the character level: the (possibly empty) fields
between occurrences of `sep`; the empty string yields one empty field. -/
def splitChar (sep : Char) : List Char → List (List Char)
  | [] => [[]]
  | c :: rest =>
    match splitChar sep rest with
    | [] => [[c]]
    | p :: ps => if c = sep then [] :: p :: ps else (c :: p) :: ps

/-- Value of a (most-significant-first) digit string. -/
def digitsToNat (l : List Char) : Nat :=
  l.foldl (fun n c => 10 * n + (c.toNat - '0'.toNat)) 0

/-- Model of Rust `f64::from_str` over `ℚ`: an optional sign, then a mantissa
`Digit+ '.'? Digit*` or `'.' Digit+`, then an optional exponent
`('e'|'E') Sign? Digit+`; anything else (including the non-finite
`inf`/`infinity`/`nan` forms, which have no rational value) is a failure.
The result is the exact rational value of the accepted literal. -/
def parseF64 (s : List Char) : Option ℚ :=
  let signAndRest : Bool × List Char :=
    match s with
    | '+' :: rest => (false, rest)
    | '-' :: rest => (true, rest)
    | _ => (false, s)
  let neg := signAndRest.1
  let s1 := signAndRest.2
  let intPart := s1.takeWhile Char.isDigit
  let rest1 := s1.dropWhile Char.isDigit
  let fracAndRest : List Char × List Char :=
    match rest1 with
    | '.' :: r => (r.takeWhile Char.isDigit, r.dropWhile Char.isDigit)
    | _ => ([], rest1)
  let fracPart := fracAndRest.1
  let rest2 := fracAndRest.2
  if intPart.isEmpty && fracPart.isEmpty then none
  else
    let mantNum : Int :=
      (digitsToNat intPart * 10 ^ fracPart.length + digitsToNat fracPart : Nat)
    let num : Int := if neg then -mantNum else mantNum
    let den : Nat := 10 ^ fracPart.length
    match rest2 with
    | [] => some (mkRat num den)
    | e :: r =>
      if e = 'e' ∨ e = 'E' then
        let expAndRest : Bool × List Char :=
          match r with
          | '+' :: rr => (false, rr)
          | '-' :: rr => (true, rr)
          | _ => (false, r)
        let eDigits := expAndRest.2.takeWhile Char.isDigit
        let r2 := expAndRest.2.dropWhile Char.isDigit
        if eDigits.isEmpty || !r2.isEmpty then none
        else if expAndRest.1 then some (mkRat num (den * 10 ^ digitsToNat eDigits))
        else some (mkRat (num * 10 ^ digitsToNat eDigits) den)
      else none

/-- The `Language` struct of src/lib.rs: a tag name and its quality. -/
structure Language where
  name : List Char
  quality : ℚ
deriving DecidableEq

/-- `impl Ord for Language` (src/lib.rs lines 29–39): a strictly greater
quality answers `Less` (sorts first), a strictly smaller one `Greater`,
otherwise `Equal`. -/
def Language.cmp (a b : Language) : Ordering :=
  if a.quality > b.quality then Ordering.lt
  else if a.quality < b.quality then Ordering.gt
  else Ordering.eq

/-- `Language::quality_with_default` (src/lib.rs lines 71–78): slices off the
two-character `q=` prefix with `&raw_quality[2..]` — a slice that panics
(modelled by `none`) when the string is shorter than two characters — and
parses the remainder as `f64`, defaulting to `0.0` on parse failure. -/
def Language.quality_with_default (raw_quality : List Char) : Option ℚ :=
  if raw_quality.length < 2 then none
  else some (match parseF64 (raw_quality.drop 2) with
             | some q => q
             | none => 0)

/-- `Language::new` (src/lib.rs lines 54–69): `tag.split(';')`; the first
`nth(0)` takes the first field as the name (a split is never empty, so the
`None` arm of the source is dead); the second `nth(0)` takes the *second*
field, if any, as the quality parameter; later fields are ignored. -/
def Language.new (tag : List Char) : Option Language :=
  match (splitChar ';' tag)[1]? with
  | some quality_str =>
    (Language.quality_with_default quality_str).map
      fun q => ⟨(splitChar ';' tag).headD [], q⟩
  | none => some ⟨(splitChar ';' tag).headD [], 1⟩

/-- The order used by `languages_string_parts.sort()`: `a` may be placed before
`b` exactly when `Language::cmp` does not answer `Greater`. -/
def langLE (a b : Language) : Prop := Language.cmp a b ≠ Ordering.gt

instance : DecidableRel langLE :=
  fun a b => (inferInstance : Decidable (Language.cmp a b ≠ Ordering.gt))

/-- Rust's `slice::sort` (a stable sort) on the tag vector, modelled by the
stable `List.insertionSort` with the same comparison. -/
def sortLangs (l : List Language) : List Language := List.insertionSort langLE l

/-- The `.iter().map(|l| Language::new(l)).collect()` step of `parse`: builds
the tag of each segment in order; a panic in any segment (modelled `none`)
aborts the whole collection. -/
def collectTags : List (List Char) → Option (List Language)
  | [] => some []
  | seg :: rest =>
    match Language.new seg with
    | none => none
    | some lang => (collectTags rest).map (lang :: ·)

/-- The unsorted tag list built inside `parse`: spaces removed by
`replace(" ", "")`, split on `,`, each segment mapped through `Language::new`;
`none` when some segment panics. -/
def tagsOf (raw_languages : List Char) : Option (List Language) :=
  collectTags (splitChar ',' (raw_languages.filter (fun c => c ≠ ' ')))

/-- The tag list of `parse` right after the `sort()` call. -/
def parseTags (raw_languages : List Char) : Option (List Language) :=
  (tagsOf raw_languages).map sortLangs

/-- `parse` (src/lib.rs lines 91–106): sorted tag names with empty names
filtered out. -/
def parse (raw_languages : List Char) : Option (List (List Char)) :=
  (parseTags raw_languages).map fun tags =>
    (tags.map Language.name).filter (fun l => !l.isEmpty)

/-- `intersection` (src/lib.rs lines 118–127): `parse`, then keep the names the
supported list `contains`. -/
def intersection (raw_languages : List Char) (supported_languages : List (List Char)) :
    Option (List (List Char)) :=
  (parse raw_languages).map fun user_languages =>
    user_languages.filter (fun l => supported_languages.contains l)

/-- §4.1 of the spec, as amended: `name` is the text before the first `;`; the
quality parameter is the text between the first and the *second* `;` (not all
the text after the first); its first two characters are sliced off (a panic,
`none`, when it is shorter than two characters) and the rest parsed, `0` on
parse failure; `1` when the segment has no `;`. -/
def tagOfSegmentSpec (seg : List Char) : Option Language :=
  match seg.dropWhile (fun c => c ≠ ';') with
  | [] => some ⟨seg.takeWhile (fun c => c ≠ ';'), 1⟩
  | _ :: afterFirst =>
    if (afterFirst.takeWhile (fun c => c ≠ ';')).length < 2 then none
    else some ⟨seg.takeWhile (fun c => c ≠ ';'),
      match parseF64 ((afterFirst.takeWhile (fun c => c ≠ ';')).drop 2) with
      | some q => q
      | none => 0⟩

/-! ### Helper lemmas about `splitChar` -/

theorem splitChar_ne_nil (sep : Char) (l : List Char) : splitChar sep l ≠ [] := by
  cases l with
  | nil => simp [splitChar]
  | cons c rest =>
    simp only [splitChar]
    split
    · simp
    · split <;> simp

theorem splitChar_headD (sep : Char) (l : List Char) :
    (splitChar sep l).headD [] = l.takeWhile (fun c => c ≠ sep) := by
  induction l with
  | nil => simp [splitChar]
  | cons c rest ih =>
    simp only [splitChar]
    cases h : splitChar sep rest with
    | nil => exact absurd h (splitChar_ne_nil sep rest)
    | cons p ps =>
      rw [h] at ih
      simp only [List.headD_cons] at ih
      by_cases hc : c = sep
      · simp [hc, List.takeWhile_cons]
      · simp [hc, List.takeWhile_cons, ih]

theorem splitChar_getElem1 (sep : Char) (l : List Char) :
    (splitChar sep l)[1]? =
      match l.dropWhile (fun c => c ≠ sep) with
      | [] => none
      | _ :: r => some (r.takeWhile (fun c => c ≠ sep)) := by
  induction l with
  | nil => simp [splitChar]
  | cons c rest ih =>
    simp only [splitChar]
    cases h : splitChar sep rest with
    | nil => exact absurd h (splitChar_ne_nil sep rest)
    | cons p ps =>
      by_cases hc : c = sep
      · have hp : p = rest.takeWhile (fun c => c ≠ sep) := by
          have := splitChar_headD sep rest
          rw [h] at this
          simpa using this
        simp [hc, List.dropWhile_cons, hp]
      · rw [h] at ih
        simp only [if_neg hc]
        simp only [List.getElem?_cons_succ] at ih ⊢
        rw [ih]
        simp [List.dropWhile_cons, hc]

/-! ### Characterizations of `Language.new` and `quality_with_default` -/

theorem new_noparam (tag : List Char) (hp : (splitChar ';' tag)[1]? = none) :
    Language.new tag = some ⟨(splitChar ';' tag).headD [], 1⟩ := by
  unfold Language.new
  rw [hp]

theorem new_param (tag p : List Char) (hp : (splitChar ';' tag)[1]? = some p) :
    Language.new tag = (Language.quality_with_default p).map
      (fun q => ⟨(splitChar ';' tag).headD [], q⟩) := by
  unfold Language.new
  rw [hp]

theorem quality_with_default_short (p : List Char) (h : p.length < 2) :
    Language.quality_with_default p = none := by
  unfold Language.quality_with_default
  rw [if_pos h]

theorem quality_with_default_long (p : List Char) (h : ¬ p.length < 2) :
    Language.quality_with_default p =
      some (match parseF64 (p.drop 2) with | some q => q | none => 0) := by
  unfold Language.quality_with_default
  rw [if_neg h]

/-! ### The comparison and the sort order -/

theorem langLE_iff (a b : Language) : langLE a b ↔ b.quality ≤ a.quality := by
  unfold langLE Language.cmp
  split_ifs with h1 h2
  · simpa using le_of_lt h1
  · simpa using not_le.mpr h2
  · simpa using not_lt.mp h2

instance : IsTotal Language langLE :=
  ⟨fun a b => by
    rcases le_total b.quality a.quality with h | h
    · exact Or.inl ((langLE_iff a b).mpr h)
    · exact Or.inr ((langLE_iff b a).mpr h)⟩

instance : IsTrans Language langLE :=
  ⟨fun a b c hab hbc =>
    (langLE_iff a c).mpr (le_trans ((langLE_iff b c).mp hbc) ((langLE_iff a b).mp hab))⟩

theorem cmp_eq_iff (a b : Language) :
    Language.cmp a b = Ordering.eq ↔ a.quality = b.quality := by
  unfold Language.cmp
  split_ifs with h1 h2
  · simpa using ne_of_gt h1
  · simpa using ne_of_lt h2
  · simpa using le_antisymm (not_lt.mp h1) (not_lt.mp h2)

/-! ### Claims C2, C3, C6, C7, C10 -/

/-- C2 counterexample: for the segment `en;q=0.5;x` the claim takes the
parameter part to be `q=0.5;x` — all the text after the first `;` — whose
suffix `0.5;x` fails to parse, so the claim predicts weight `0`; the code uses
only the field between the first and second `;` (`q=0.5`) and yields `1/2`. -/
theorem c2_counterexample :
    parseF64 (str "0.5;x") = none ∧
    Language.new (str "en;q=0.5;x") = some ⟨str "en", mkRat 1 2⟩ ∧
    (mkRat 1 2 : ℚ) ≠ 0 := by decide

/-- C2 (amended): tag construction splits on `;`: the name is the text before
the first `;` (the whole segment when it has none, with weight 1); when the
segment has a `;`, the parameter part is the text between the first and the
*second* `;` — not everything after the first — and the weight is the
floating-point parse of that part after its sliced 2-character prefix, `0`
when that parse fails, and a panic when the part is shorter than 2
characters. -/
theorem c2_tag_construction (seg : List Char) :
    Language.new seg = tagOfSegmentSpec seg := by
  cases h : seg.dropWhile (fun c => decide (c ≠ ';')) with
  | nil =>
    rw [new_noparam seg (by rw [splitChar_getElem1, h])]
    unfold tagOfSegmentSpec
    rw [h, splitChar_headD]
  | cons x r =>
    rw [new_param seg (r.takeWhile (fun c => decide (c ≠ ';')))
      (by rw [splitChar_getElem1, h])]
    unfold tagOfSegmentSpec
    rw [h]
    dsimp only
    by_cases hlen : (r.takeWhile (fun c => decide (c ≠ ';'))).length < 2
    · rw [quality_with_default_short _ hlen, if_pos hlen]
      rfl
    · rw [quality_with_default_long _ hlen, if_neg hlen, splitChar_headD]
      rfl

theorem c2_witness :
    Language.new (str "en;q=0.3;q=0.9") = tagOfSegmentSpec (str "en;q=0.3;q=0.9") ∧
    tagOfSegmentSpec (str "en;q=0.3;q=0.9") = some ⟨str "en", mkRat 3 10⟩ :=
  ⟨c2_tag_construction (str "en;q=0.3;q=0.9"), by decide⟩

/-- C3 counterexample: the segment `de;q` has the quality parameter `q`, which
does not parse as a floating-point number, yet the tag's weight is not `0.0`:
the 2-character slice panics (`none`), so construction raises an error. -/
theorem c3_counterexample :
    parseF64 (str "q") = none ∧
    (splitChar ';' (str "de;q"))[1]? = some (str "q") ∧
    Language.new (str "de;q") = none := by decide

/-- C3 (amended): for every segment whose quality parameter is at least two
characters long and does not parse as a floating-point number after its
2-character prefix, the resulting tag's weight is exactly `0` — not `1` and
not an error. -/
theorem c3_malformed_quality_zero (seg p : List Char)
    (hp : (splitChar ';' seg)[1]? = some p) (hlen : 2 ≤ p.length)
    (hfail : parseF64 (p.drop 2) = none) :
    Language.new seg = some ⟨(splitChar ';' seg).headD [], 0⟩ := by
  rw [new_param seg p hp, quality_with_default_long p (Nat.not_lt.mpr hlen), hfail]
  rfl

theorem c3_witness : Language.new (str "en;q=yolo") = some ⟨str "en", 0⟩ := by
  have h := c3_malformed_quality_zero (str "en;q=yolo") (str "q=yolo")
    (by decide) (by decide) (by decide)
  exact h.trans (by decide)

/-- C6: parsing the empty string yields the empty list: the single empty
segment produces an empty name, which the final filter removes. -/
theorem c6_parse_empty : parse (str "") = some [] := by decide

/-- C7 counterexample: the parse of `en;q=2.5` produces a tag whose weight,
`5/2`, lies outside `[0, 1]`. -/
theorem c7_counterexample :
    parseTags (str "en;q=2.5") = some [⟨str "en", mkRat 5 2⟩] ∧
    ¬ ((mkRat 5 2 : ℚ) ≤ 1) := by decide

/-- C7 (amended): a tag's weight is the default `1` (no parameter part), the
fallback `0` (parse failure), or *exactly* the parsed quality value, which is
not clamped to `[0, 1]`: the weight lies in the range only when the supplied
quality value does. -/
theorem c7_weight_unclamped (seg : List Char) (lang : Language)
    (h : Language.new seg = some lang) :
    lang.quality = 1 ∨ lang.quality = 0 ∨
    ∃ p, (splitChar ';' seg)[1]? = some p ∧ parseF64 (p.drop 2) = some lang.quality := by
  rcases hp : (splitChar ';' seg)[1]? with _ | p
  · rw [new_noparam seg hp] at h
    simp only [Option.some.injEq] at h
    left
    rw [← h]
  · rw [new_param seg p hp] at h
    by_cases hlen : p.length < 2
    · rw [quality_with_default_short p hlen] at h
      simp at h
    · rw [quality_with_default_long p hlen] at h
      rcases hq : parseF64 (p.drop 2) with _ | q
      · rw [hq] at h
        have h2 := Option.some.inj h
        right; left
        rw [← h2]
      · rw [hq] at h
        have h2 := Option.some.inj h
        right; right
        refine ⟨p, rfl, ?_⟩
        rw [← h2]
        exact hq

theorem c7_witness :
    (Language.mk (str "en") (mkRat 5 2)).quality = 1 ∨
    (Language.mk (str "en") (mkRat 5 2)).quality = 0 ∨
    ∃ p, (splitChar ';' (str "en;q=2.5"))[1]? = some p ∧
      parseF64 (p.drop 2) = some (Language.mk (str "en") (mkRat 5 2)).quality :=
  c7_weight_unclamped (str "en;q=2.5") ⟨str "en", mkRat 5 2⟩ (by decide)

/-- C10: the `q=` prefix of a quality parameter is never validated — the first
two characters are sliced off whatever they are, so the weight depends only on
the remainder; in particular `en;x=0.5` yields weight `1/2`, the same as
`en;q=0.5`. -/
theorem c10_prefix_ignored (a b : Char) (rest : List Char) :
    Language.quality_with_default (a :: b :: rest) =
      Language.quality_with_default ('q' :: '=' :: rest) ∧
    Language.new (str "en;x=0.5") = Language.new (str "en;q=0.5") ∧
    Language.new (str "en;x=0.5") = some ⟨str "en", mkRat 1 2⟩ := by
  refine ⟨?_, by decide, by decide⟩
  unfold Language.quality_with_default
  simp

theorem c10_witness :
    Language.quality_with_default ('x' :: '=' :: str "0.5") =
      Language.quality_with_default ('q' :: '=' :: str "0.5") ∧
    Language.new (str "en;x=0.5") = Language.new (str "en;q=0.5") ∧
    Language.new (str "en;x=0.5") = some ⟨str "en", mkRat 1 2⟩ :=
  c10_prefix_ignored 'x' '=' (str "0.5")

/-! ### Stability of insertion sort on an equivalence class of the order -/

theorem orderedInsert_filter {α : Type} (r : α → α → Prop) [DecidableRel r]
    (p : α → Bool) (hpr : ∀ a b, p a = true → p b = true → r a b)
    (a : α) (l : List α) :
    (l.orderedInsert r a).filter p =
      if p a then a :: l.filter p else l.filter p := by
  induction l with
  | nil => simp [List.orderedInsert, List.filter_cons]
  | cons b t ih =>
    simp only [List.orderedInsert]
    by_cases hr : r a b
    · rw [if_pos hr, List.filter_cons, List.filter_cons]
    · rw [if_neg hr, List.filter_cons, ih, List.filter_cons]
      by_cases hpa : p a = true
      · by_cases hpb : p b = true
        · exact absurd (hpr a b hpa hpb) hr
        · simp [hpa, hpb]
      · simp [hpa]

theorem insertionSort_filter_eqclass {α : Type} (r : α → α → Prop) [DecidableRel r]
    (p : α → Bool) (hpr : ∀ a b, p a = true → p b = true → r a b) :
    ∀ l : List α, (List.insertionSort r l).filter p = l.filter p
  | [] => rfl
  | a :: t => by
    rw [List.insertionSort, orderedInsert_filter r p hpr,
      insertionSort_filter_eqclass r p hpr t, List.filter_cons]

/-! ### Totality of the pipeline on panic-free input -/

theorem new_isSome_iff (seg : List Char) :
    (Language.new seg).isSome = true ↔
      ∀ p, (splitChar ';' seg)[1]? = some p → 2 ≤ p.length := by
  rcases hp : (splitChar ';' seg)[1]? with _ | p
  · rw [new_noparam seg hp]
    simp
  · rw [new_param seg p hp]
    by_cases hlen : p.length < 2
    · rw [quality_with_default_short p hlen]
      constructor
      · intro hs
        exact absurd hs Bool.false_ne_true
      · intro hall
        exact absurd (hall p rfl) (by omega)
    · rw [quality_with_default_long p hlen]
      constructor
      · intro _ p2 hp2
        cases Option.some.inj hp2
        omega
      · intro _
        rfl

theorem collectTags_isSome (segs : List (List Char))
    (h : ∀ seg ∈ segs, (Language.new seg).isSome = true) :
    (collectTags segs).isSome = true := by
  induction segs with
  | nil => rfl
  | cons s t ih =>
    have hs2 := h s (List.mem_cons_self s t)
    rcases hs : Language.new s with _ | lang
    · rw [hs] at hs2
      exact absurd hs2 Bool.false_ne_true
    · have ht := ih (fun seg hseg => h seg (List.mem_cons_of_mem s hseg))
      rcases hct : collectTags t with _ | l
      · rw [hct] at ht
        exact absurd ht Bool.false_ne_true
      · simp only [collectTags]
        rw [hs, hct]
        rfl

/-! ### Claims C1, C4, C5, C9 -/

/-- C1 counterexample: on the input `en;q` the parameter field is the single
character `q`, shorter than the 2-character `q=` prefix, and the slice
`&raw_quality[2..]` is out of bounds: both `parse` and `intersection` panic
(modelled by `none`) instead of returning normally. -/
theorem c1_counterexample :
    parse (str "en;q") = none ∧ intersection (str "en;q") [str "en"] = none := by
  decide

/-- C1 (amended): `parse` and `intersection` return normally on every input
in which, after space removal, each comma-separated segment's second
semicolon-separated field (when present) is at least two characters long;
when some such field is shorter than the 2-character `q=` prefix, the
quality-extraction slice is out of bounds and the operations panic. -/
theorem c1_no_panic_on_long_quality_fields (raw : List Char)
    (h : ∀ seg ∈ splitChar ',' (raw.filter (fun c => c ≠ ' ')),
         ∀ p, (splitChar ';' seg)[1]? = some p → 2 ≤ p.length) :
    (parse raw).isSome = true ∧ ∀ L, (intersection raw L).isSome = true := by
  have htags : (tagsOf raw).isSome = true :=
    collectTags_isSome _ (fun seg hseg => (new_isSome_iff seg).mpr (h seg hseg))
  have hparse : (parse raw).isSome = true := by
    unfold parse parseTags
    rcases ht : tagsOf raw with _ | l
    · rw [ht] at htags
      exact absurd htags Bool.false_ne_true
    · rfl
  refine ⟨hparse, fun L => ?_⟩
  unfold intersection
  rcases hp : parse raw with _ | out
  · rw [hp] at hparse
    exact absurd hparse Bool.false_ne_true
  · rfl

theorem c1_witness :
    (parse (str "en;q=0.5")).isSome = true ∧
    (intersection (str "en;q=0.5") [str "en"]).isSome = true := by
  have h : (parse (str "en;q=0.5")).isSome = true ∧
      ∀ L, (intersection (str "en;q=0.5") L).isSome = true := by
    apply c1_no_panic_on_long_quality_fields
    intro seg hseg p hp
    simp only [show splitChar ',' ((str "en;q=0.5").filter (fun c => c ≠ ' ')) =
        [str "en;q=0.5"] from by decide, List.mem_singleton] at hseg
    subst hseg
    rw [show (splitChar ';' (str "en;q=0.5"))[1]? = some (str "q=0.5") from by decide] at hp
    rw [← Option.some.inj hp]
    decide
  exact ⟨h.1, h.2 [str "en"]⟩

/-- C4: the names `parse` outputs are those of the sorted tag list, which is
in non-increasing order of weight (higher weight sorts first). -/
theorem c4_parse_sorted_descending (raw : List Char) (tags : List Language)
    (h : parseTags raw = some tags) :
    tags.Pairwise (fun a b => b.quality ≤ a.quality) ∧
    parse raw = some ((tags.map Language.name).filter (fun l => !l.isEmpty)) := by
  constructor
  · unfold parseTags at h
    rcases ht : tagsOf raw with _ | l
    · rw [ht] at h
      exact absurd h (by simp)
    · rw [ht] at h
      have h2 : sortLangs l = tags := Option.some.inj h
      rw [← h2]
      exact (List.sorted_insertionSort langLE l).imp (fun hab => (langLE_iff _ _).mp hab)
  · unfold parse
    rw [h]
    rfl

/-- C4 witness, which is also the claim's concrete example: parsing
`en-US, de;q=0.1, jp;q=0.7` returns exactly `["en-US", "jp", "de"]`. -/
theorem c4_witness :
    parse (str "en-US, de;q=0.1, jp;q=0.7") =
      some [str "en-US", str "jp", str "de"] ∧
    ([⟨str "en-US", 1⟩, ⟨str "jp", mkRat 7 10⟩, ⟨str "de", mkRat 1 10⟩] :
      List Language).Pairwise (fun a b => b.quality ≤ a.quality) := by
  have h := c4_parse_sorted_descending (str "en-US, de;q=0.1, jp;q=0.7")
    [⟨str "en-US", 1⟩, ⟨str "jp", mkRat 7 10⟩, ⟨str "de", mkRat 1 10⟩] (by decide)
  exact ⟨h.2.trans (by decide), h.1⟩

/-- C5: `intersection` is `parse` filtered to exact, case-sensitive members of
the supported list, preserving order (the result is a sublist of the parse
output), so every element of the result belongs to the supported list. -/
theorem c5_intersection_filters (raw : List Char) (L : List (List Char))
    (out : List (List Char)) (h : parse raw = some out) :
    intersection raw L = some (out.filter (fun x => decide (x ∈ L))) ∧
    List.Sublist (out.filter (fun x => decide (x ∈ L))) out ∧
    ∀ x ∈ out.filter (fun x => decide (x ∈ L)), x ∈ L := by
  refine ⟨?_, List.filter_sublist out, ?_⟩
  · unfold intersection
    rw [h]
    show some (out.filter (fun l => L.contains l)) = _
    exact congrArg some (List.filter_congr (fun x _ => List.elem_eq_mem x L))
  · intro x hx
    exact of_decide_eq_true (List.mem_filter.mp hx).2

theorem c5_witness :
    intersection (str "en-US, de;q=0.7, jp;q=0.1") [str "en-US", str "jp"] =
      some [str "en-US", str "jp"] := by
  have h := c5_intersection_filters (str "en-US, de;q=0.7, jp;q=0.1")
    [str "en-US", str "jp"] [str "en-US", str "de", str "jp"] (by decide)
  exact h.1.trans (by decide)

/-- C9: the comparison answers `Equal` exactly when the weights are equal, and
the sort is stable: for each weight `q`, the tags of weight `q` appear after
sorting in exactly their original segment order. -/
theorem c9_equal_weights_stable (raw : List Char) (tags : List Language) (q : ℚ)
    (h : tagsOf raw = some tags) :
    (∀ a b : Language, Language.cmp a b = Ordering.eq ↔ a.quality = b.quality) ∧
    (sortLangs tags).filter (fun t => decide (t.quality = q)) =
      tags.filter (fun t => decide (t.quality = q)) ∧
    parseTags raw = some (sortLangs tags) := by
  refine ⟨cmp_eq_iff, ?_, ?_⟩
  · exact insertionSort_filter_eqclass langLE (fun t => decide (t.quality = q))
      (fun a b ha hb => by
        have ha2 := of_decide_eq_true ha
        have hb2 := of_decide_eq_true hb
        unfold langLE
        rw [(cmp_eq_iff a b).mpr (ha2.trans hb2.symm)]
        simp) tags
  · unfold parseTags
    rw [h]
    rfl

theorem c9_witness :
    Language.cmp ⟨str "a", mkRat 1 2⟩ ⟨str "c", mkRat 1 2⟩ = Ordering.eq ∧
    (sortLangs [⟨str "a", mkRat 1 2⟩, ⟨str "b", 1⟩, ⟨str "c", mkRat 1 2⟩]).filter
        (fun t => decide (t.quality = mkRat 1 2)) =
      [⟨str "a", mkRat 1 2⟩, ⟨str "c", mkRat 1 2⟩] := by
  have h := c9_equal_weights_stable (str "a;q=0.5,b,c;q=0.5")
    [⟨str "a", mkRat 1 2⟩, ⟨str "b", 1⟩, ⟨str "c", mkRat 1 2⟩] (mkRat 1 2) (by decide)
  exact ⟨(h.1 _ _).mpr (by decide), h.2.1.trans (by decide)⟩

/-! ### Splitting and joining headers -/

/-- Re-presenting a list of names as a comma-separated header value. -/
def joinHeader : List (List Char) → List Char
  | [] => []
  | [x] => x
  | x :: y :: rest => x ++ ',' :: joinHeader (y :: rest)

theorem splitChar_cons_self (sep : Char) (rest : List Char) :
    splitChar sep (sep :: rest) = [] :: splitChar sep rest := by
  simp only [splitChar]
  cases h : splitChar sep rest with
  | nil => exact absurd h (splitChar_ne_nil sep rest)
  | cons q qs => simp

theorem splitChar_cons_ne (sep c : Char) (rest : List Char) (hc : ¬ c = sep) :
    splitChar sep (c :: rest) =
      (c :: (splitChar sep rest).headD []) :: (splitChar sep rest).tail := by
  simp only [splitChar]
  cases h : splitChar sep rest with
  | nil => exact absurd h (splitChar_ne_nil sep rest)
  | cons q qs => simp [hc]

theorem splitChar_headD_mem (sep : Char) (l : List Char) :
    (splitChar sep l).headD [] ∈ splitChar sep l := by
  cases h : splitChar sep l with
  | nil => exact absurd h (splitChar_ne_nil sep l)
  | cons q qs => simp

theorem splitChar_not_mem_sep (sep : Char) :
    ∀ (l : List Char), ∀ p ∈ splitChar sep l, sep ∉ p := by
  intro l
  induction l with
  | nil =>
    intro p hp
    simp only [splitChar, List.mem_singleton] at hp
    subst hp
    exact List.not_mem_nil sep
  | cons c rest ih =>
    intro p hp
    by_cases hc : c = sep
    · subst hc
      rw [splitChar_cons_self] at hp
      rcases List.mem_cons.mp hp with rfl | hp2
      · exact List.not_mem_nil c
      · exact ih p hp2
    · rw [splitChar_cons_ne sep c rest hc] at hp
      rcases List.mem_cons.mp hp with rfl | hp2
      · intro hmem
        rcases List.mem_cons.mp hmem with heq | hmem2
        · exact hc heq.symm
        · exact ih _ (splitChar_headD_mem sep rest) hmem2
      · exact ih p (List.mem_of_mem_tail hp2)

theorem mem_of_mem_splitChar (sep : Char) :
    ∀ (l : List Char), ∀ p ∈ splitChar sep l, ∀ c ∈ p, c ∈ l := by
  intro l
  induction l with
  | nil =>
    intro p hp c hc
    simp only [splitChar, List.mem_singleton] at hp
    subst hp
    exact absurd hc (List.not_mem_nil c)
  | cons a rest ih =>
    intro p hp c hc
    by_cases ha : a = sep
    · subst ha
      rw [splitChar_cons_self] at hp
      rcases List.mem_cons.mp hp with rfl | hp2
      · exact absurd hc (List.not_mem_nil c)
      · exact List.mem_cons_of_mem a (ih p hp2 c hc)
    · rw [splitChar_cons_ne sep a rest ha] at hp
      rcases List.mem_cons.mp hp with rfl | hp2
      · rcases List.mem_cons.mp hc with rfl | hc2
        · exact List.mem_cons_self c rest
        · exact List.mem_cons_of_mem a
            (ih _ (splitChar_headD_mem sep rest) c hc2)
      · exact List.mem_cons_of_mem a (ih p (List.mem_of_mem_tail hp2) c hc)

theorem splitChar_no_sep (sep : Char) :
    ∀ (l : List Char), sep ∉ l → splitChar sep l = [l] := by
  intro l
  induction l with
  | nil => intro _; rfl
  | cons c rest ih =>
    intro h
    have hc : ¬ c = sep := fun he => h (he ▸ List.mem_cons_self c rest)
    rw [splitChar_cons_ne sep c rest hc, ih (fun hm => h (List.mem_cons_of_mem c hm))]
    rfl

theorem splitChar_append (sep : Char) :
    ∀ (x rest : List Char), sep ∉ x →
      splitChar sep (x ++ sep :: rest) = x :: splitChar sep rest := by
  intro x
  induction x with
  | nil =>
    intro rest _
    exact splitChar_cons_self sep rest
  | cons a t ih =>
    intro rest h
    have ha : ¬ a = sep := fun he => h (he ▸ List.mem_cons_self a t)
    rw [List.cons_append, splitChar_cons_ne sep a _ ha,
      ih rest (fun hm => h (List.mem_cons_of_mem a hm))]
    rfl

theorem splitChar_joinHeader : ∀ (out : List (List Char)),
    (∀ x ∈ out, ',' ∉ x) → out ≠ [] → splitChar ',' (joinHeader out) = out
  | [], _, h => absurd rfl h
  | [x], hmem, _ => by
    rw [joinHeader, splitChar_no_sep ',' x (hmem x (List.mem_singleton_self x))]
  | x :: y :: rest, hmem, _ => by
    rw [joinHeader, splitChar_append ',' x _ (hmem x (List.mem_cons_self x (y :: rest))),
      splitChar_joinHeader (y :: rest)
        (fun z hz => hmem z (List.mem_cons_of_mem x hz)) (by simp)]

theorem mem_joinHeader : ∀ (out : List (List Char)) (c : Char),
    c ∈ joinHeader out → c = ',' ∨ ∃ x ∈ out, c ∈ x
  | [], c, hc => absurd hc (List.not_mem_nil c)
  | [x], c, hc => Or.inr ⟨x, List.mem_singleton_self x, hc⟩
  | x :: y :: rest, c, hc => by
    rw [joinHeader] at hc
    rcases List.mem_append.mp hc with hx | hr
    · exact Or.inr ⟨x, List.mem_cons_self x (y :: rest), hx⟩
    · rcases List.mem_cons.mp hr with rfl | hr2
      · exact Or.inl rfl
      · rcases mem_joinHeader (y :: rest) c hr2 with h1 | ⟨z, hz, hcz⟩
        · exact Or.inl h1
        · exact Or.inr ⟨z, List.mem_cons_of_mem x hz, hcz⟩

/-! ### Round-tripping a list of clean names through `parse` -/

theorem new_of_no_semis (x : List Char) (hx : ';' ∉ x) :
    Language.new x = some ⟨x, 1⟩ := by
  rw [new_noparam x (by rw [splitChar_no_sep ';' x hx]; rfl),
    splitChar_no_sep ';' x hx]
  rfl

theorem collectTags_map_one : ∀ (out : List (List Char)),
    (∀ x ∈ out, ';' ∉ x) →
    collectTags out = some (out.map (fun x => ⟨x, 1⟩))
  | [], _ => rfl
  | x :: rest, h => by
    simp only [collectTags]
    rw [new_of_no_semis x (h x (List.mem_cons_self x rest)),
      collectTags_map_one rest (fun z hz => h z (List.mem_cons_of_mem x hz))]
    rfl

theorem sortLangs_const_one (l : List Language) (h : ∀ t ∈ l, t.quality = 1) :
    sortLangs l = l := by
  apply List.Sorted.insertionSort_eq
  apply List.pairwise_of_forall_mem_list
  intro a ha b hb
  rw [langLE_iff, h a ha, h b hb]

theorem joinHeader_filter_space (out : List (List Char))
    (hspace : ∀ x ∈ out, ' ' ∉ x) :
    (joinHeader out).filter (fun c => c ≠ ' ') = joinHeader out := by
  apply List.filter_eq_self.mpr
  intro c hc
  rcases mem_joinHeader out c hc with rfl | ⟨x, hx, hcx⟩
  · decide
  · simp only [ne_eq, decide_eq_true_eq]
    intro heq
    exact hspace x hx (heq ▸ hcx)

theorem parse_clean (out : List (List Char))
    (hsemi : ∀ x ∈ out, ';' ∉ x) (hcomma : ∀ x ∈ out, ',' ∉ x)
    (hspace : ∀ x ∈ out, ' ' ∉ x) (hne : ∀ x ∈ out, x ≠ []) (hout : out ≠ []) :
    parse (joinHeader out) = some out := by
  unfold parse parseTags tagsOf
  rw [joinHeader_filter_space out hspace, splitChar_joinHeader out hcomma hout,
    collectTags_map_one out hsemi]
  have hq1 : ∀ t ∈ out.map (fun x => (⟨x, 1⟩ : Language)), t.quality = 1 := by
    intro t ht
    rcases List.mem_map.mp ht with ⟨x, _, rfl⟩
    rfl
  show some ((((out.map (fun x => (⟨x, 1⟩ : Language))).insertionSort langLE).map
    Language.name).filter (fun l => !l.isEmpty)) = some out
  rw [show ((out.map (fun x => (⟨x, 1⟩ : Language))).insertionSort langLE) =
      sortLangs (out.map (fun x => (⟨x, 1⟩ : Language))) from rfl,
    sortLangs_const_one _ hq1, List.map_map,
    show ((fun (t : Language) => t.name) ∘ fun x => (⟨x, 1⟩ : Language)) =
      fun (x : List Char) => x from rfl,
    List.map_id']
  apply congrArg some
  apply List.filter_eq_self.mpr
  intro x hx
  simpa using hne x hx

/-! ### What `parse` and `collectTags` produce -/

theorem collectTags_mem : ∀ (segs : List (List Char)) (l : List Language),
    collectTags segs = some l → ∀ t ∈ l, ∃ seg ∈ segs, Language.new seg = some t
  | [], l, h => by
    cases Option.some.inj h
    intro t ht
    exact absurd ht (List.not_mem_nil t)
  | s :: rest, l, h => by
    intro t ht
    rcases hs : Language.new s with _ | lang
    · rw [collectTags, hs] at h
      exact Option.noConfusion h
    · rw [collectTags, hs] at h
      rcases hct : collectTags rest with _ | l2
      · rw [hct] at h
        exact Option.noConfusion h
      · rw [hct] at h
        have hl : lang :: l2 = l := Option.some.inj h
        rw [← hl] at ht
        rcases List.mem_cons.mp ht with rfl | ht2
        · exact ⟨s, List.mem_cons_self s rest, hs⟩
        · rcases collectTags_mem rest l2 hct t ht2 with ⟨seg, hsegmem, hnew⟩
          exact ⟨seg, List.mem_cons_of_mem s hsegmem, hnew⟩

theorem new_name (seg : List Char) (t : Language) (h : Language.new seg = some t) :
    t.name = (splitChar ';' seg).headD [] := by
  rcases hp : (splitChar ';' seg)[1]? with _ | p
  · rw [new_noparam seg hp] at h
    rw [← Option.some.inj h]
  · rw [new_param seg p hp] at h
    rcases hq : Language.quality_with_default p with _ | q
    · rw [hq] at h
      exact Option.noConfusion h
    · rw [hq] at h
      rw [← Option.some.inj h]

theorem parse_names_clean (raw : List Char) (out : List (List Char))
    (h : parse raw = some out) :
    ∀ x ∈ out, x ≠ [] ∧ ';' ∉ x ∧ ',' ∉ x ∧ ' ' ∉ x := by
  intro x hx
  unfold parse parseTags tagsOf at h
  rcases ht : collectTags (splitChar ',' (raw.filter (fun c => c ≠ ' '))) with _ | l
  · rw [ht] at h
    exact Option.noConfusion h
  · rw [ht] at h
    have hout : ((sortLangs l).map Language.name).filter (fun s => !s.isEmpty) = out :=
      Option.some.inj h
    rw [← hout] at hx
    have hx2 := List.mem_filter.mp hx
    have hxne : x ≠ [] := by simpa using hx2.2
    rcases List.mem_map.mp hx2.1 with ⟨t, htmem, rfl⟩
    have htl : t ∈ l := (List.mem_insertionSort langLE).mp htmem
    rcases collectTags_mem _ l ht t htl with ⟨seg, hsegmem, hnew⟩
    have hname := new_name seg t hnew
    have hnamemem : t.name ∈ splitChar ';' seg := hname ▸ splitChar_headD_mem ';' seg
    have hsemi : ';' ∉ t.name := splitChar_not_mem_sep ';' seg t.name hnamemem
    have hsubseg : ∀ c ∈ t.name, c ∈ seg := mem_of_mem_splitChar ';' seg t.name hnamemem
    have hcomma : ',' ∉ t.name := fun hm =>
      splitChar_not_mem_sep ',' _ seg hsegmem (hsubseg ',' hm)
    have hspace : ' ' ∉ t.name := by
      intro hm
      have hseg := mem_of_mem_splitChar ',' _ seg hsegmem ' ' (hsubseg ' ' hm)
      have := List.mem_filter.mp hseg
      simp at this
    exact ⟨hxne, hsemi, hcomma, hspace⟩

/-! ### Claim C8 -/

/-- C8: filtering is idempotent — re-presenting the result of an intersection
as a comma-separated header and intersecting it with the same supported list
returns the same list unchanged. -/
theorem c8_intersection_idempotent (raw : List Char) (L out : List (List Char))
    (h : intersection raw L = some out) :
    intersection (joinHeader out) L = some out := by
  unfold intersection at h
  rcases hp : parse raw with _ | pout
  · rw [hp] at h
    exact Option.noConfusion h
  · rw [hp] at h
    have hout : pout.filter (fun l2 => L.contains l2) = out := Option.some.inj h
    have hclean := parse_names_clean raw pout hp
    have houtmem : ∀ x ∈ out, x ∈ pout := by
      intro x hx
      rw [← hout] at hx
      exact (List.mem_filter.mp hx).1
    have hcont : ∀ x ∈ out, L.contains x = true := by
      intro x hx
      rw [← hout] at hx
      exact (List.mem_filter.mp hx).2
    rcases Decidable.em (out = []) with rfl | hne
    · unfold intersection
      rw [show parse (joinHeader ([] : List (List Char))) = some [] from by decide]
      rfl
    · have hparse2 : parse (joinHeader out) = some out :=
        parse_clean out
          (fun x hx => (hclean x (houtmem x hx)).2.1)
          (fun x hx => (hclean x (houtmem x hx)).2.2.1)
          (fun x hx => (hclean x (houtmem x hx)).2.2.2)
          (fun x hx => (hclean x (houtmem x hx)).1)
          hne
      unfold intersection
      rw [hparse2]
      exact congrArg some (List.filter_eq_self.mpr hcont)

theorem c8_witness :
    intersection (joinHeader [str "en-US", str "jp"]) [str "en-US", str "jp"] =
      some [str "en-US", str "jp"] :=
  c8_intersection_idempotent (str "en-US, de;q=0.7, jp;q=0.1")
    [str "en-US", str "jp"] [str "en-US", str "jp"] (by decide)

end AcceptLanguage
